import Mathlib

/-!
Verification of the kernel-pca crate against its specification.

Shallow embedding of the four source files (src/error.rs, src/kernel.rs,
src/util.rs, src/lib.rs). The generic scalar type T (instantiated at f64 by
callers of the crate) is modelled as the real numbers; nalgebra's dynamic
matrices are modelled as Mathlib matrices indexed by Fin, and the black-box
SVD routine (x.svd(true, false)) is an oracle passed to apply as an argument.
A Rust panic raised by an out-of-range nalgebra view (rows/columns with a
range exceeding the matrix size) is modelled as the distinguished result
RunError.fault; a typed library error is RunError.err.
-/

namespace KPCA

noncomputable section

/-- Model of src/error.rs: the error enum with its three variants, each
carrying a message string. -/
inductive KPcaError where
  | ComputationFailure (message : String)
  | InvalidConfig (message : String)
  | InvalidData (message : String)
deriving DecidableEq

/-- Model of src/kernel.rs: the kernel enum with its three variants. -/
inductive Kernel where
  | Linear
  | RationalQuadratic (gamma alpha : ℝ)
  | SquaredExponential (gamma : ℝ)

/-- Model of compute_linear in src/kernel.rs: fold of the pairwise products
over the zip of the two argument slices (the zip stops at the shorter one). -/
def compute_linear (a b : List ℝ) : ℝ :=
  (a.zip b).foldl (fun sum p => sum + p.1 * p.2) 0

/-- Model of compute_rational_quadratic in src/kernel.rs: the sum of squared
differences over the zip, then (1 + gamma * ssd) to the real power -alpha
(Rust powf is real exponentiation, modelled by Real.rpow). -/
def compute_rational_quadratic (a b : List ℝ) (gamma alpha : ℝ) : ℝ :=
  let ssd := (a.zip b).foldl (fun sum p => sum + (p.1 - p.2) * (p.1 - p.2)) 0
  (1 + gamma * ssd) ^ (-alpha)

/-- Model of compute_squared_exponential in src/kernel.rs. -/
def compute_squared_exponential (a b : List ℝ) (gamma : ℝ) : ℝ :=
  let ssd := (a.zip b).foldl (fun sum p => sum + (p.1 - p.2) * (p.1 - p.2)) 0
  Real.exp (-gamma * ssd)

/-- Model of Kernel::compute in src/kernel.rs: dispatch on the variant. -/
def Kernel.compute : Kernel → List ℝ → List ℝ → ℝ
  | .Linear, a, b => compute_linear a b
  | .RationalQuadratic gamma alpha, a, b => compute_rational_quadratic a b gamma alpha
  | .SquaredExponential gamma, a, b => compute_squared_exponential a b gamma

/-- Model of the KernelPca configuration struct in src/lib.rs. -/
structure KernelPca where
  kernel : Kernel
  embed_dim : ℕ

/-- Model of sort_indices_descending in src/util.rs, generic over the ordered
scalar type as the Rust function is generic over T: Float. The Rust comparator
returns Greater exactly when values[a] < values[b], so index a may precede
index b exactly when not (values[a] < values[b]); the stable standard-library
sort is modelled by insertion sort with that relation. Out-of-range reads
(never produced by List.range) are modelled by getD with the default value. -/
def sort_indices_descending {α : Type} [LinearOrder α] [Inhabited α]
    (values : List α) : List ℕ :=
  List.insertionSort (fun a b => ¬ (values.getD a default < values.getD b default))
    (List.range values.length)

/-- Model of KernelPca::validate in src/lib.rs: the five checks in source
order, returning the first failing check's error. The local dim (the first
row's width, data[0].len()) is inlined as data.headI.length, and the third
check (the loop over the rows) is rendered by List.any, which is true exactly
when the loop would have returned. -/
def KernelPca.validate (p : KernelPca) (data : List (List ℝ)) : Except KPcaError Unit :=
  if data.length = 0 then
    .error (.InvalidData "Input data has no records")
  else if data.headI.length = 0 then
    .error (.InvalidData "Input data has a dimensionality of zero")
  else if data.any fun row => row.length != data.headI.length then
    .error (.InvalidData "Input data has inconsistent dimensionality across records")
  else if p.embed_dim = 0 then
    .error (.InvalidConfig "Embedding dimension must be positive")
  else if p.embed_dim > data.headI.length then
    .error (.InvalidConfig "Embeddind dimension must be <= data dimension")
  else
    .ok ()

/-- Model of KernelPca::form_kernel_matrix in src/lib.rs. The imperative loop
writes, for each i, the entries (i, j) with j < i and mirrors them to (j, i),
and writes the diagonal separately; each entry is written exactly once, so the
matrix is the function below. -/
def KernelPca.form_kernel_matrix (p : KernelPca) (x : List (List ℝ)) :
    Matrix (Fin x.length) (Fin x.length) ℝ :=
  Matrix.of fun i j =>
    if i = j then p.kernel.compute (x.get i) (x.get i)
    else if (j : ℕ) < (i : ℕ) then p.kernel.compute (x.get i) (x.get j)
    else p.kernel.compute (x.get j) (x.get i)

/-- Model of T::from(dim) for the real scalar model: converting a usize into
the scalar type. For the reals this conversion always succeeds; the Option
keeps the shape of the fallible Rust conversion that the two centering
functions check. -/
def floatFromNat (n : ℕ) : Option ℝ := some (n : ℝ)

/-- Model of center_kernel_matrix in src/lib.rs: q is the constant matrix
with every entry 1/n, r is the identity minus q, and the result is (r * k) * r. -/
def center_kernel_matrix {n : ℕ} (k : Matrix (Fin n) (Fin n) ℝ) :
    Except KPcaError (Matrix (Fin n) (Fin n) ℝ) :=
  match floatFromNat n with
  | none => .error (.ComputationFailure "Unable to convert dimension to float")
  | some tdim =>
    let q : Matrix (Fin n) (Fin n) ℝ := Matrix.of fun _ _ => 1 / tdim
    let r : Matrix (Fin n) (Fin n) ℝ := 1 - q
    .ok ((r * k) * r)

/-- Model of center_data in src/lib.rs: per-column means over all rows, then
every entry minus its column mean. The Rust code reads dim from the first row
and is only called on validated (nonempty, rectangular) data; reads that
would be out of range on unvalidated data are modelled by getD with 0 and the
first row of empty data by headI with the empty default. -/
def center_data (x : List (List ℝ)) :
    Except KPcaError (Matrix (Fin x.length) (Fin x.headI.length) ℝ) :=
  match floatFromNat x.length with
  | none => .error (.ComputationFailure "Unable to convert data length to float")
  | some n =>
    let means : Fin x.headI.length → ℝ :=
      fun j => (x.foldl (fun acc row => acc + row.getD (j : ℕ) 0) 0) / n
    .ok (Matrix.of fun i j => (x.get i).getD (j : ℕ) 0 - means j)

/-- Model of the value nalgebra's x.svd(true, false) returns for an n-by-d
matrix: up to min n d singular values (the library contract delivers them in
descending order) and, when requested, the n-by-(min n d) matrix of left
singular vectors (the u field is an Option in nalgebra). -/
structure SvdResult (n d : ℕ) where
  u : Option (Matrix (Fin n) (Fin (min n d)) ℝ)
  singular_values : Fin (min n d) → ℝ

/-- The SVD routine as a black box: one result for every input matrix. -/
def SvdAlg : Type := (n d : ℕ) → Matrix (Fin n) (Fin d) ℝ → SvdResult n d

/-- Model of taking the first k rows of a length-m column vector
(nalgebra rows(0, k)): defined when k is at most m, a panic otherwise. -/
def sliceVec {m : ℕ} (k : ℕ) (v : Fin m → ℝ) : Option (Fin k → ℝ) :=
  if h : k ≤ m then some (fun i => v (Fin.castLE h i)) else none

/-- Model of taking the first k columns of an n-by-m matrix
(nalgebra columns(0, k)): defined when k is at most m, a panic otherwise. -/
def sliceCols {n m : ℕ} (k : ℕ) (u : Matrix (Fin n) (Fin m) ℝ) :
    Option (Matrix (Fin n) (Fin k) ℝ) :=
  if h : k ≤ m then some (Matrix.of fun i j => u i (Fin.castLE h j)) else none

/-- One iteration of the loop body of determine_signs in src/lib.rs: the
state is (max_abs_elem, flip); when the absolute value of the current entry
strictly exceeds the maximum seen so far, record it and set flip to whether
the entry is negative, otherwise leave the state unchanged. -/
def signStep (st : ℝ × Bool) (val : ℝ) : ℝ × Bool :=
  if |val| > st.1 then (|val|, if val < 0 then true else false) else st

/-- The per-column computation of determine_signs in src/lib.rs: scan the
column entries in row order from the state (0, false); the sign is -1 exactly
when the flip flag ends true. -/
def signOfColumn {n : ℕ} (col : Fin n → ℝ) : ℝ :=
  let st := ((List.finRange n).map col).foldl signStep ((0 : ℝ), false)
  if st.2 then -1 else 1

/-- Model of determine_signs in src/lib.rs: slice the first dim columns of u
(a panic when dim exceeds the column count) and compute one sign per column. -/
def determine_signs {n m : ℕ} (u : Matrix (Fin n) (Fin m) ℝ) (dim : ℕ) :
    Option (Fin dim → ℝ) :=
  (sliceCols dim u).map fun usel => fun j => signOfColumn fun i => usel i j

/-- A run of apply either surfaces a typed library error (err) or aborts on a
Rust panic from an out-of-range matrix view (fault). -/
inductive RunError where
  | err (e : KPcaError)
  | fault (message : String)
deriving DecidableEq

/-- The part of KernelPca::apply after the centered matrix x is built
(src/lib.rs lines 51 to 74), shared verbatim by the two dispatch branches:
run the SVD, slice the first embed_dim singular values, build the diagonal
sigma (square roots taken exactly when the kernel is not Linear), unwrap u
(ComputationFailure when absent), compute the per-column signs, slice the
first embed_dim columns of u, multiply, and emit the rows with each entry
scaled by its column sign. The locals svd, sigma and embeddings of the Rust
body, each used once, are inlined; the slice of the singular values happens
before u is unwrapped, as in the source. -/
def svd_phase (svdO : SvdAlg) (n d : ℕ) (x : Matrix (Fin n) (Fin d) ℝ)
    (isLinear : Bool) (embedDim : ℕ) : Except RunError (List (List ℝ)) :=
  match sliceVec embedDim (svdO n d x).singular_values with
  | none => .error (.fault "singular value slice out of range")
  | some sv =>
    match (svdO n d x).u with
    | none => .error (.err (.ComputationFailure "SVD Failure"))
    | some u =>
      match determine_signs u embedDim with
      | none => .error (.fault "column slice out of range")
      | some signs =>
        match sliceCols embedDim u with
        | none => .error (.fault "column slice out of range")
        | some usel =>
          .ok ((List.finRange n).map fun i =>
            (List.finRange embedDim).map fun j =>
              (usel * Matrix.diagonal
                  (if isLinear then sv else fun t => Real.sqrt (sv t))) i j
                * signs j)

/-- Model of KernelPca::apply in src/lib.rs: validate, dispatch on the kernel
(the Linear kernel centers the data itself, every other kernel builds and
double-centers the kernel matrix), then the shared SVD phase. -/
def KernelPca.apply (svdO : SvdAlg) (p : KernelPca) (data : List (List ℝ)) :
    Except RunError (List (List ℝ)) :=
  match p.validate data with
  | .error e => .error (.err e)
  | .ok _ =>
    match p.kernel with
    | .Linear =>
      match center_data data with
      | .error e => .error (.err e)
      | .ok x => svd_phase svdO data.length data.headI.length x true p.embed_dim
    | _ =>
      match center_kernel_matrix (p.form_kernel_matrix data) with
      | .error e => .error (.err e)
      | .ok x => svd_phase svdO data.length data.length x false p.embed_dim

/-- The all-ones matrix (the J of the double-centering formula R = I - (1/n) J). -/
def onesMatrix (n : ℕ) : Matrix (Fin n) (Fin n) ℝ := Matrix.of fun _ _ => 1

/-- The centering factor R that center_kernel_matrix builds: identity minus
the constant matrix with every entry 1/n. -/
def centerR (n : ℕ) : Matrix (Fin n) (Fin n) ℝ := 1 - Matrix.of fun _ _ => 1 / (n : ℝ)

/-- A concrete SVD oracle whose every result carries a present (all-zero) u
and all-zero singular values; used to instantiate theorems about apply at
concrete inputs. -/
def svdTrivial : SvdAlg := fun _ _ _ => ⟨some (Matrix.of fun _ _ => 0), fun _ => 0⟩

/-- The square root of one half, the magnitude of the entries of the true
left singular vectors of the 2-by-2 centered kernel matrix used in the
concrete decompositions below. -/
def rootHalf : ℝ := Real.sqrt (1 / 2)

/-- A concrete SVD oracle: constant in its matrix argument, returning the
exact SVD of the centered kernel matrix of the dataset [[0],[1]] under the
rational quadratic kernel with gamma = alpha = 1 (that matrix has singular
value 1/2 with left singular vector (-sqrt(1/2), sqrt(1/2)), and singular
value 0): the first u column is (-rootHalf, rootHalf), the others rootHalf. -/
def svdC : SvdAlg := fun _ _ _ =>
  ⟨some (Matrix.of fun i j =>
      if (j : ℕ) = 0 then (if (i : ℕ) = 0 then -rootHalf else rootHalf) else rootHalf),
    fun j => if (j : ℕ) = 0 then 1 / 2 else 0⟩

/-- Negate column c of a matrix, leaving every other column unchanged: the
sign ambiguity of a decomposition routine on one returned column. -/
def negColMatrix (c : ℕ) {n m : ℕ} (U : Matrix (Fin n) (Fin m) ℝ) :
    Matrix (Fin n) (Fin m) ℝ :=
  Matrix.of fun i j => if (j : ℕ) = c then -(U i j) else U i j

/-- The oracle svdC with its first u column negated and the same singular
values: the other equally valid SVD of the same matrix. -/
def svdCflip : SvdAlg := fun n d x =>
  ⟨((svdC n d x).u).map (negColMatrix 0), (svdC n d x).singular_values⟩

/-- Modelled from the spec (section 4.5, general kernel path), for comparison
with the code: given the eigenvalues and eigenvectors the decomposition
routine returned (eigvecs v i is component i of eigenvector v), rank the
eigenvalue indices descending via sort_indices_descending and set embedding
row i, column j to eigenvector_j[i] times the square root of eigenvalue_j,
for the top embedDim ranked indices in rank order. -/
def spec_general_embedding (n : ℕ) (eigvals : List ℝ) (eigvecs : ℕ → ℕ → ℝ)
    (embedDim : ℕ) : List (List ℝ) :=
  let rank := sort_indices_descending eigvals
  (List.range n).map fun i =>
    (List.range embedDim).map fun j =>
      eigvecs (rank.getD j 0) i * Real.sqrt (eigvals.getD (rank.getD j 0) 0)

/-- The eigenvector function matching the oracle svdC: eigenvector 0 is
(-rootHalf, rootHalf), every other is constant rootHalf. -/
def eigvecsC : ℕ → ℕ → ℝ := fun v i =>
  if v = 0 then (if i = 0 then -rootHalf else rootHalf) else rootHalf

/-- The kernel matrix of the concrete dataset [[0], [1]] under the rational
quadratic kernel with gamma = alpha = 1. -/
def kmatC : Matrix (Fin 2) (Fin 2) ℝ :=
  KernelPca.form_kernel_matrix ⟨Kernel.RationalQuadratic 1 1, 1⟩ [[0], [1]]

/-- The double-centered concrete kernel matrix that apply hands to the SVD
routine on the dataset [[0], [1]]. -/
def xC : Matrix (Fin 2) (Fin 2) ℝ := (centerR 2 * kmatC) * centerR 2

/-- The all-zero 2-by-2 matrix of left singular vectors the trivial oracle
returns. -/
def Uzero : Matrix (Fin 2) (Fin (min 2 2)) ℝ := Matrix.of fun _ _ => 0

end

/-! Helper lemmas about the fold combinators the kernel functions use. -/

lemma zip_foldl_symm (f : ℝ → ℝ → ℝ) (hf : ∀ x y, f x y = f y x) :
    ∀ (a b : List ℝ) (init : ℝ),
      (a.zip b).foldl (fun s p => s + f p.1 p.2) init
        = (b.zip a).foldl (fun s p => s + f p.1 p.2) init
  | [], _, _ => by simp
  | _ :: _, [], _ => by simp
  | x :: xs, y :: ys, init => by
      simp only [List.zip_cons_cons, List.foldl_cons]
      rw [hf x y]
      exact zip_foldl_symm f hf xs ys _

lemma foldl_add_init (g : ℝ × ℝ → ℝ) :
    ∀ (l : List (ℝ × ℝ)) (init : ℝ),
      l.foldl (fun s p => s + g p) init = init + l.foldl (fun s p => s + g p) 0
  | [], init => by simp
  | p :: l, init => by
      simp only [List.foldl_cons]
      rw [foldl_add_init g l (init + g p), foldl_add_init g l (0 + g p)]
      ring

lemma zip_foldl_eq_sum (f : ℝ → ℝ → ℝ) :
    ∀ (a b : List ℝ), a.length = b.length →
      (a.zip b).foldl (fun s p => s + f p.1 p.2) 0
        = ∑ i : Fin a.length, f (a.get i) (b.getD (i : ℕ) 0)
  | [], [], _ => by simp
  | [], _ :: _, h => by simp at h
  | _ :: _, [], h => by simp at h
  | x :: xs, y :: ys, h => by
      simp only [List.zip_cons_cons, List.foldl_cons, zero_add]
      rw [foldl_add_init (fun p => f p.1 p.2) (xs.zip ys) (f x y)]
      rw [zip_foldl_eq_sum f xs ys (by simpa using h)]
      simp only [List.length_cons]
      rw [Fin.sum_univ_succ]
      congr 1

lemma zip_take_min : ∀ (a b : List ℝ),
    (a.take (min a.length b.length)).zip (b.take (min a.length b.length)) = a.zip b
  | [], _ => by simp
  | _ :: _, [] => by simp
  | x :: xs, y :: ys => by
      simp only [List.length_cons, Nat.succ_min_succ, List.take_succ_cons,
        List.zip_cons_cons]
      rw [zip_take_min xs ys]

lemma kernel_compute_symm (k : Kernel) (a b : List ℝ) :
    k.compute a b = k.compute b a := by
  cases k with
  | Linear =>
    exact zip_foldl_symm (fun x y => x * y) (fun x y => mul_comm x y) a b 0
  | RationalQuadratic gamma alpha =>
    show compute_rational_quadratic a b gamma alpha
        = compute_rational_quadratic b a gamma alpha
    unfold compute_rational_quadratic
    rw [zip_foldl_symm (fun x y => (x - y) * (x - y)) (fun x y => by ring) a b 0]
  | SquaredExponential gamma =>
    show compute_squared_exponential a b gamma = compute_squared_exponential b a gamma
    unfold compute_squared_exponential
    rw [zip_foldl_symm (fun x y => (x - y) * (x - y)) (fun x y => by ring) a b 0]

lemma form_kernel_matrix_entry (p : KernelPca) (x : List (List ℝ))
    (i j : Fin x.length) :
    p.form_kernel_matrix x i j = p.kernel.compute (x.get i) (x.get j) := by
  unfold KernelPca.form_kernel_matrix
  simp only [Matrix.of_apply]
  by_cases hij : i = j
  · subst hij; simp
  · rw [if_neg hij]
    by_cases hlt : (j : ℕ) < (i : ℕ)
    · rw [if_pos hlt]
    · rw [if_neg hlt]
      exact kernel_compute_symm p.kernel (x.get j) (x.get i)

/-- Claim C6: every kernel variant is symmetric in its two arguments, the
kernel matrix has entry (i, j) equal to the kernel of rows i and j, and the
kernel matrix equals its own transpose. -/
theorem kernel_symmetry_gram :
    (∀ (k : Kernel) (a b : List ℝ), k.compute a b = k.compute b a) ∧
    (∀ (p : KernelPca) (x : List (List ℝ)) (i j : Fin x.length),
      p.form_kernel_matrix x i j = p.kernel.compute (x.get i) (x.get j)) ∧
    (∀ (p : KernelPca) (x : List (List ℝ)),
      Matrix.transpose (p.form_kernel_matrix x) = p.form_kernel_matrix x) := by
  refine ⟨kernel_compute_symm, form_kernel_matrix_entry, ?_⟩
  intro p x
  ext i j
  rw [Matrix.transpose_apply, form_kernel_matrix_entry, form_kernel_matrix_entry]
  exact kernel_compute_symm p.kernel (x.get j) (x.get i)

/-- Claim C7: on equal-length vectors the three kernel variants evaluate to
the dot product, the rational quadratic closed form with real exponentiation,
and the squared exponential closed form; each is a total function of its
arguments (purity and determinism are inherent in the functional model). -/
theorem kernel_compute_formulas (a b : List ℝ) (h : a.length = b.length) :
    Kernel.Linear.compute a b = (∑ i : Fin a.length, a.get i * b.getD (i : ℕ) 0) ∧
    (∀ gamma alpha : ℝ,
      (Kernel.RationalQuadratic gamma alpha).compute a b
        = (1 + gamma * ∑ i : Fin a.length, (a.get i - b.getD (i : ℕ) 0) ^ 2) ^ (-alpha)) ∧
    (∀ gamma : ℝ,
      (Kernel.SquaredExponential gamma).compute a b
        = Real.exp (-gamma * ∑ i : Fin a.length, (a.get i - b.getD (i : ℕ) 0) ^ 2)) := by
  have hssd : (a.zip b).foldl (fun s p => s + (p.1 - p.2) * (p.1 - p.2)) 0
      = ∑ i : Fin a.length, (a.get i - b.getD (i : ℕ) 0) ^ 2 := by
    rw [zip_foldl_eq_sum (fun x y => (x - y) * (x - y)) a b h]
    exact Finset.sum_congr rfl fun i _ => by ring
  refine ⟨?_, ?_, ?_⟩
  · exact zip_foldl_eq_sum (fun x y => x * y) a b h
  · intro gamma alpha
    show compute_rational_quadratic a b gamma alpha = _
    unfold compute_rational_quadratic
    rw [hssd]
  · intro gamma
    show compute_squared_exponential a b gamma = _
    unfold compute_squared_exponential
    rw [hssd]

/-- Witness for C7 at the concrete input a = [1, 2], b = [3, 4]. -/
theorem kernel_compute_formulas_witness :
    ([(1 : ℝ), 2].length = [(3 : ℝ), 4].length) ∧
    (Kernel.Linear.compute [1, 2] [3, 4]
        = (∑ i : Fin ([(1 : ℝ), 2].length), [(1 : ℝ), 2].get i * [(3 : ℝ), 4].getD (i : ℕ) 0) ∧
      (∀ gamma alpha : ℝ,
        (Kernel.RationalQuadratic gamma alpha).compute [1, 2] [3, 4]
          = (1 + gamma * ∑ i : Fin ([(1 : ℝ), 2].length),
              ([(1 : ℝ), 2].get i - [(3 : ℝ), 4].getD (i : ℕ) 0) ^ 2) ^ (-alpha)) ∧
      (∀ gamma : ℝ,
        (Kernel.SquaredExponential gamma).compute [1, 2] [3, 4]
          = Real.exp (-gamma * ∑ i : Fin ([(1 : ℝ), 2].length),
              ([(1 : ℝ), 2].get i - [(3 : ℝ), 4].getD (i : ℕ) 0) ^ 2))) :=
  ⟨rfl, kernel_compute_formulas [1, 2] [3, 4] rfl⟩

/-- Claim C10: every kernel evaluation is total on mismatched lengths and
equals the evaluation on the common prefixes of length min of the two
lengths, because the pairwise zip stops at the shorter input. -/
theorem kernel_compute_prefix_safe : ∀ (k : Kernel) (a b : List ℝ),
    k.compute a b
      = k.compute (a.take (min a.length b.length)) (b.take (min a.length b.length)) := by
  intro k a b
  have hz := zip_take_min a b
  cases k <;>
    simp only [Kernel.compute, compute_linear, compute_rational_quadratic,
      compute_squared_exponential, hz]

/-! Helper lemmas about the index ranking utility. -/

lemma sort_indices_perm {α : Type} [LinearOrder α] [Inhabited α] (values : List α) :
    (sort_indices_descending values).Perm (List.range values.length) :=
  List.perm_insertionSort _ _

lemma sort_indices_pairwise {α : Type} [LinearOrder α] [Inhabited α] (values : List α) :
    (sort_indices_descending values).Pairwise
      (fun a b => values.getD b default ≤ values.getD a default) := by
  haveI ht : IsTrans ℕ (fun a b => ¬ (values.getD a default < values.getD b default)) :=
    ⟨fun a b c hab hbc => by
      rw [not_lt] at hab hbc ⊢
      exact le_trans hbc hab⟩
  haveI hto : IsTotal ℕ (fun a b => ¬ (values.getD a default < values.getD b default)) :=
    ⟨fun a b => by
      rcases le_total (values.getD a default) (values.getD b default) with h | h
      · exact Or.inr (not_lt.mpr h)
      · exact Or.inl (not_lt.mpr h)⟩
  have hs := List.sorted_insertionSort
    (fun a b => ¬ (values.getD a default < values.getD b default))
    (List.range values.length)
  exact hs.imp fun hab => not_lt.mp hab

/-- Claim C9: the index ranking utility returns a permutation of the indices
0..n along which the values are non-increasing, and on the concrete input of
the spec it returns [2, 3, 0, 4, 1] (the scalar type is generic in the
source; the concrete example is evaluated over the exact rationals). -/
theorem sort_indices_descending_spec :
    (∀ (α : Type) [LinearOrder α] [Inhabited α] (values : List α),
      (sort_indices_descending values).Perm (List.range values.length) ∧
      (sort_indices_descending values).Pairwise
        (fun a b => values.getD b default ≤ values.getD a default)) ∧
    sort_indices_descending [(0.5 : ℚ), 0.3, 0.8, 0.7, 0.4] = [2, 3, 0, 4, 1] := by
  refine ⟨fun α _ _ values => ⟨sort_indices_perm values, sort_indices_pairwise values⟩, ?_⟩
  have h5 : List.range 5 = [0, 1, 2, 3, 4] := rfl
  norm_num [sort_indices_descending, h5, List.insertionSort, List.orderedInsert]

/-- Claim C8: double centering returns (R * K) * R with R = I - (1/n) J on
every input (the matrix is read, never written), and errors exactly when the
dimension-to-scalar conversion fails, which for the real scalar model is
never. -/
theorem center_kernel_matrix_spec : ∀ (n : ℕ) (k : Matrix (Fin n) (Fin n) ℝ),
    (center_kernel_matrix k =
      Except.ok
        (((1 - ((n : ℝ))⁻¹ • onesMatrix n) * k) * (1 - ((n : ℝ))⁻¹ • onesMatrix n))) ∧
    ((∃ e, center_kernel_matrix k = Except.error e) ↔ floatFromNat n = none) := by
  intro n k
  have hr : (Matrix.of fun _ _ => 1 / (n : ℝ) : Matrix (Fin n) (Fin n) ℝ)
      = ((n : ℝ))⁻¹ • onesMatrix n := by
    ext i j
    simp [onesMatrix, Matrix.smul_apply, one_div]
  constructor
  · show Except.ok _ = _
    rw [← hr]
  · simp [center_kernel_matrix, floatFromNat]

/-! Helper lemmas about validation and its use by apply. -/

lemma apply_of_validate_error (svdO : SvdAlg) (p : KernelPca) (data : List (List ℝ))
    (e : KPcaError) (h : p.validate data = .error e) :
    p.apply svdO data = .error (.err e) := by
  unfold KernelPca.apply
  rw [h]

/-- Claim C4: apply validates before any computation, applying the five
checks in source order and short-circuiting on the first failure, and the
four concrete examples of the spec produce the stated error variants. -/
theorem validate_order_and_examples :
    (∀ (svdO : SvdAlg) (p : KernelPca) (data : List (List ℝ)),
      data.length = 0 →
        p.apply svdO data = .error (.err (.InvalidData "Input data has no records"))) ∧
    (∀ (svdO : SvdAlg) (p : KernelPca) (data : List (List ℝ)),
      data.length ≠ 0 → data.headI.length = 0 →
        p.apply svdO data
          = .error (.err (.InvalidData "Input data has a dimensionality of zero"))) ∧
    (∀ (svdO : SvdAlg) (p : KernelPca) (data : List (List ℝ)),
      data.length ≠ 0 → data.headI.length ≠ 0 →
      (∃ row ∈ data, row.length ≠ data.headI.length) →
        p.apply svdO data
          = .error (.err
              (.InvalidData "Input data has inconsistent dimensionality across records"))) ∧
    (∀ (svdO : SvdAlg) (p : KernelPca) (data : List (List ℝ)),
      data.length ≠ 0 → data.headI.length ≠ 0 →
      (∀ row ∈ data, row.length = data.headI.length) → p.embed_dim = 0 →
        p.apply svdO data
          = .error (.err (.InvalidConfig "Embedding dimension must be positive"))) ∧
    (∀ (svdO : SvdAlg) (p : KernelPca) (data : List (List ℝ)),
      data.length ≠ 0 → data.headI.length ≠ 0 →
      (∀ row ∈ data, row.length = data.headI.length) → p.embed_dim ≠ 0 →
      data.headI.length < p.embed_dim →
        p.apply svdO data
          = .error (.err (.InvalidConfig "Embeddind dimension must be <= data dimension"))) ∧
    (∀ (svdO : SvdAlg) (k : Kernel) (e : ℕ),
      KernelPca.apply svdO ⟨k, e⟩ []
        = .error (.err (.InvalidData "Input data has no records"))) ∧
    (∀ (svdO : SvdAlg) (k : Kernel),
      KernelPca.apply svdO ⟨k, 0⟩ [[1]]
        = .error (.err (.InvalidConfig "Embedding dimension must be positive"))) ∧
    (∀ (svdO : SvdAlg) (k : Kernel) (e : ℕ),
      KernelPca.apply svdO ⟨k, e⟩ [[1, 2], [3]]
        = .error (.err
            (.InvalidData "Input data has inconsistent dimensionality across records"))) ∧
    (∀ (svdO : SvdAlg) (k : Kernel),
      KernelPca.apply svdO ⟨k, 3⟩ [[1, 2]]
        = .error (.err (.InvalidConfig "Embeddind dimension must be <= data dimension"))) := by
  refine ⟨?_, ?_, ?_, ?_, ?_, ?_, ?_, ?_, ?_⟩
  · intro svdO p data h0
    exact apply_of_validate_error svdO p data _ (by simp [KernelPca.validate, h0])
  · intro svdO p data h0 h1
    exact apply_of_validate_error svdO p data _ (by simp [KernelPca.validate, h0, h1])
  · intro svdO p data h0 h1 hrow
    apply apply_of_validate_error svdO p data
    obtain ⟨row, hm, hne⟩ := hrow
    have hany : data.any (fun row => row.length != data.headI.length) = true :=
      List.any_eq_true.mpr ⟨row, hm, by simpa using hne⟩
    simp [KernelPca.validate, h0, h1, hany]
  · intro svdO p data h0 h1 hall he
    apply apply_of_validate_error svdO p data
    have hany : data.any (fun row => row.length != data.headI.length) = false := by
      rw [List.any_eq_false]
      intro row hm
      simpa using hall row hm
    simp [KernelPca.validate, h0, h1, hany, he]
  · intro svdO p data h0 h1 hall he hgt
    apply apply_of_validate_error svdO p data
    have hany : data.any (fun row => row.length != data.headI.length) = false := by
      rw [List.any_eq_false]
      intro row hm
      simpa using hall row hm
    simp [KernelPca.validate, h0, h1, hany, he, hgt]
  · intro svdO k e
    exact apply_of_validate_error svdO _ _ _ rfl
  · intro svdO k
    exact apply_of_validate_error svdO _ _ _ rfl
  · intro svdO k e
    exact apply_of_validate_error svdO _ _ _ rfl
  · intro svdO k
    exact apply_of_validate_error svdO _ _ _ rfl

lemma validate_ok_iff (p : KernelPca) (data : List (List ℝ)) :
    p.validate data = .ok () ↔
      (data.length ≠ 0 ∧ data.headI.length ≠ 0 ∧
       (∀ row ∈ data, row.length = data.headI.length) ∧
       p.embed_dim ≠ 0 ∧ p.embed_dim ≤ data.headI.length) := by
  unfold KernelPca.validate
  split_ifs with h1 h2 h3 h4 h5
  · simp [h1]
  · simp [h2]
  · have hne : ¬ (∀ row ∈ data, row.length = data.headI.length) := by
      obtain ⟨row, hm, hrow⟩ := List.any_eq_true.mp h3
      intro hall
      have hd : row.length ≠ data.headI.length := by simpa using hrow
      exact hd (hall row hm)
    constructor
    · intro h; simp at h
    · intro h; exact absurd h.2.2.1 hne
  · constructor
    · intro h; simp at h
    · intro h; exact absurd h4 h.2.2.2.1
  · constructor
    · intro h; simp at h
    · intro h; exact absurd h.2.2.2.2 (by omega)
  · refine iff_of_true rfl ⟨h1, h2, ?_, h4, by omega⟩
    intro row hm
    by_contra hne
    exact h3 (List.any_eq_true.mpr ⟨row, hm, by simpa using hne⟩)

lemma center_kernel_matrix_eq_ok {n : ℕ} (k : Matrix (Fin n) (Fin n) ℝ) :
    center_kernel_matrix k = .ok ((centerR n * k) * centerR n) := rfl

lemma svd_phase_ok (svdO : SvdAlg) (n d : ℕ) (x : Matrix (Fin n) (Fin d) ℝ)
    (isLin : Bool) (k : ℕ) (hk : k ≤ min n d)
    (hu : ((svdO n d x).u).isSome = true) :
    ∃ emb, svd_phase svdO n d x isLin k = .ok emb ∧ emb.length = n ∧
      ∀ row ∈ emb, row.length = k := by
  obtain ⟨U, hU⟩ := Option.isSome_iff_exists.mp hu
  simp only [svd_phase, determine_signs, sliceVec, sliceCols, hU, dif_pos hk,
    Option.map_some']
  refine ⟨_, rfl, by simp, ?_⟩
  intro row hr
  obtain ⟨i, _, rfl⟩ := List.mem_map.mp hr
  simp

/-- Claim C1 (amended): for every dataset and configuration that pass
validation and whose embedding dimension also does not exceed the row count
n, and an SVD routine that honors its contract of returning the requested
left singular vectors, apply returns Ok with exactly n rows, each of exactly
embed_dim entries, rows emitted in input order. -/
theorem apply_shape_amended (svdO : SvdAlg) (p : KernelPca) (data : List (List ℝ))
    (hval : p.validate data = .ok ())
    (hemb : p.embed_dim ≤ data.length)
    (hO : ∀ (n d : ℕ) (x : Matrix (Fin n) (Fin d) ℝ), ((svdO n d x).u).isSome = true) :
    ∃ emb, p.apply svdO data = .ok emb ∧ emb.length = data.length ∧
      ∀ row ∈ emb, row.length = p.embed_dim := by
  obtain ⟨h1, h2, hall, he0, hed⟩ := (validate_ok_iff p data).mp hval
  unfold KernelPca.apply
  rw [hval]
  cases hker : p.kernel with
  | Linear =>
    obtain ⟨y, hy⟩ : ∃ y, center_data data = .ok y := ⟨_, rfl⟩
    rw [hy]
    exact svd_phase_ok svdO _ _ y true p.embed_dim (Nat.le_min.mpr ⟨hemb, hed⟩)
      (hO _ _ _)
  | RationalQuadratic gamma alpha =>
    rw [center_kernel_matrix_eq_ok]
    exact svd_phase_ok svdO _ _ _ false p.embed_dim (Nat.le_min.mpr ⟨hemb, hemb⟩)
      (hO _ _ _)
  | SquaredExponential gamma =>
    rw [center_kernel_matrix_eq_ok]
    exact svd_phase_ok svdO _ _ _ false p.embed_dim (Nat.le_min.mpr ⟨hemb, hemb⟩)
      (hO _ _ _)

/-- Witness for the amended C1 at the one-point dataset [[1]] with the
linear kernel, embedding dimension 1, and the trivial oracle. -/
theorem apply_shape_witness :
    (KernelPca.validate ⟨Kernel.Linear, 1⟩ [[1]] = Except.ok ()) ∧
    (KernelPca.embed_dim ⟨Kernel.Linear, 1⟩ ≤ List.length [[(1 : ℝ)]]) ∧
    (∀ (n d : ℕ) (x : Matrix (Fin n) (Fin d) ℝ), ((svdTrivial n d x).u).isSome = true) ∧
    (∃ emb, KernelPca.apply svdTrivial ⟨Kernel.Linear, 1⟩ [[1]] = .ok emb ∧
      emb.length = List.length [[(1 : ℝ)]] ∧
      ∀ row ∈ emb, row.length = KernelPca.embed_dim ⟨Kernel.Linear, 1⟩) :=
  ⟨rfl, Nat.le_refl 1, fun _ _ _ => rfl,
    apply_shape_amended svdTrivial ⟨Kernel.Linear, 1⟩ [[1]] rfl (Nat.le_refl 1)
      (fun _ _ _ => rfl)⟩

/-- Counterexample to C1 as stated: the dataset [[1, 2]] (one row, width 2)
with embed_dim = 2 passes validation, yet apply does not return Ok: it aborts
slicing two singular values out of the single one available. -/
theorem apply_shape_counterexample :
    (KernelPca.validate ⟨Kernel.Linear, 2⟩ [[1, 2]] = Except.ok ()) ∧
    KernelPca.apply svdTrivial ⟨Kernel.Linear, 2⟩ [[1, 2]]
      = .error (.fault "singular value slice out of range") :=
  ⟨rfl, rfl⟩

/-- Claim C3: with a non-linear kernel, a rectangular dataset of n rows and
width d, and n < embed_dim less than or equal to d, validation succeeds but
apply aborts slicing the decomposition result, returning no embedding. -/
theorem validation_gap_embed_dim (svdO : SvdAlg) (p : KernelPca)
    (data : List (List ℝ))
    (hk : p.kernel ≠ Kernel.Linear)
    (h0 : data.length ≠ 0)
    (hrect : ∀ row ∈ data, row.length = data.headI.length)
    (hlow : data.length < p.embed_dim)
    (hhigh : p.embed_dim ≤ data.headI.length) :
    p.validate data = .ok () ∧
    p.apply svdO data = .error (.fault "singular value slice out of range") := by
  have hval : p.validate data = .ok () :=
    (validate_ok_iff p data).mpr ⟨h0, by omega, hrect, by omega, hhigh⟩
  refine ⟨hval, ?_⟩
  unfold KernelPca.apply
  rw [hval]
  have hns : ¬ (p.embed_dim ≤ min data.length data.length) := by
    rw [Nat.min_self]; omega
  cases hker : p.kernel with
  | Linear => exact absurd hker hk
  | RationalQuadratic gamma alpha =>
    rw [center_kernel_matrix_eq_ok]
    unfold svd_phase sliceVec
    dsimp only
    rw [dif_neg hns]
  | SquaredExponential gamma =>
    rw [center_kernel_matrix_eq_ok]
    unfold svd_phase sliceVec
    dsimp only
    rw [dif_neg hns]

/-- Witness for C3 at the dataset [[1, 2]] (n = 1, d = 2), the rational
quadratic kernel, and embed_dim = 2. -/
theorem validation_gap_embed_dim_witness :
    (Kernel.RationalQuadratic (1 : ℝ) 1 ≠ Kernel.Linear) ∧
    (List.length [[(1 : ℝ), 2]] ≠ 0) ∧
    (∀ row ∈ [[(1 : ℝ), 2]], row.length = (List.headI [[(1 : ℝ), 2]]).length) ∧
    (List.length [[(1 : ℝ), 2]] < 2) ∧
    (2 ≤ (List.headI [[(1 : ℝ), 2]]).length) ∧
    (KernelPca.validate ⟨Kernel.RationalQuadratic 1 1, 2⟩ [[1, 2]] = .ok () ∧
      KernelPca.apply svdTrivial ⟨Kernel.RationalQuadratic 1 1, 2⟩ [[1, 2]]
        = .error (.fault "singular value slice out of range")) :=
  by
  have hk : Kernel.RationalQuadratic (1 : ℝ) 1 ≠ Kernel.Linear := fun h => nomatch h
  have hrect : ∀ row ∈ [[(1 : ℝ), 2]], row.length = (List.headI [[(1 : ℝ), 2]]).length := by
    simp
  exact ⟨hk, Nat.one_ne_zero, hrect, Nat.one_lt_two, Nat.le_refl 2,
    validation_gap_embed_dim svdTrivial ⟨Kernel.RationalQuadratic 1 1, 2⟩ [[1, 2]]
      hk Nat.one_ne_zero hrect Nat.one_lt_two (Nat.le_refl 2)⟩

/-! Helper lemmas about the sign scan of determine_signs. -/

lemma signStep_fst_le (st : ℝ × Bool) (val : ℝ) : st.1 ≤ (signStep st val).1 := by
  unfold signStep
  by_cases h : |val| > st.1
  · rw [if_pos h]
    exact le_of_lt h
  · rw [if_neg h]

lemma foldl_signStep_fst_mono : ∀ (l : List ℝ) (st : ℝ × Bool),
    st.1 ≤ (l.foldl signStep st).1
  | [], _ => le_refl _
  | v :: l, st =>
      le_trans (signStep_fst_le st v) (foldl_signStep_fst_mono l (signStep st v))

lemma foldl_signStep_bound : ∀ (l : List ℝ) (st : ℝ × Bool) (v : ℝ), v ∈ l →
    |v| ≤ (l.foldl signStep st).1
  | v' :: l, st, v, hv => by
      simp only [List.foldl_cons]
      rcases List.mem_cons.mp hv with h | h
      · subst h
        refine le_trans ?_ (foldl_signStep_fst_mono l (signStep st v))
        unfold signStep
        by_cases hc : |v| > st.1
        · rw [if_pos hc]
        · rw [if_neg hc]
          exact le_of_not_lt hc
      · exact foldl_signStep_bound l (signStep st v') v h

lemma foldl_signStep_neg : ∀ (l : List ℝ) (s t : ℝ × Bool),
    s.1 = t.1 → 0 ≤ s.1 → (s.1 = 0 → s.2 = t.2) → (0 < s.1 → t.2 = !s.2) →
    ((l.foldl signStep s).1 = ((l.map fun v => -v).foldl signStep t).1 ∧
      0 ≤ (l.foldl signStep s).1 ∧
      ((l.foldl signStep s).1 = 0 →
        (l.foldl signStep s).2 = ((l.map fun v => -v).foldl signStep t).2) ∧
      (0 < (l.foldl signStep s).1 →
        ((l.map fun v => -v).foldl signStep t).2 = !(l.foldl signStep s).2))
  | [], _, _, h1, h2, h3, h4 => ⟨h1, h2, h3, h4⟩
  | v :: l, s, t, h1, h2, h3, h4 => by
      simp only [List.map_cons, List.foldl_cons]
      apply foldl_signStep_neg l (signStep s v) (signStep t (-v))
      · unfold signStep
        rw [abs_neg, ← h1]
        by_cases hc : |v| > s.1
        · simp only [if_pos hc]
        · simp only [if_neg hc]
          exact h1
      · unfold signStep
        by_cases hc : |v| > s.1
        · simp only [if_pos hc]
          exact abs_nonneg v
        · simp only [if_neg hc]
          exact h2
      · unfold signStep
        rw [abs_neg, ← h1]
        by_cases hc : |v| > s.1
        · simp only [if_pos hc]
          intro hz
          exact absurd hz (ne_of_gt (lt_of_le_of_lt h2 hc))
        · simp only [if_neg hc]
          exact h3
      · unfold signStep
        rw [abs_neg, ← h1]
        by_cases hc : |v| > s.1
        · simp only [if_pos hc]
          intro _
          have hv : v ≠ 0 := by
            intro h0
            rw [h0, abs_zero] at hc
            exact absurd hc (not_lt.mpr h2)
          by_cases hvneg : v < 0
          · rw [if_pos hvneg, if_neg (by linarith : ¬ (-v < 0))]
            rfl
          · have hvpos : 0 < v := lt_of_le_of_ne (not_lt.mp hvneg) (Ne.symm hv)
            rw [if_neg hvneg, if_pos (by linarith : -v < 0)]
            rfl
        · simp only [if_neg hc]
          exact h4

lemma signOfColumn_neg_mul {n : ℕ} (col : Fin n → ℝ) (i : Fin n) :
    (-(col i)) * signOfColumn (fun t => -(col t)) = col i * signOfColumn col := by
  have hmap : (List.finRange n).map (fun t => -(col t))
      = ((List.finRange n).map col).map (fun v => -v) := by
    rw [List.map_map]
    rfl
  unfold signOfColumn
  rw [hmap]
  dsimp only
  obtain ⟨hfst, hnn, hzero, hpos⟩ :=
    foldl_signStep_neg ((List.finRange n).map col) ((0 : ℝ), false) ((0 : ℝ), false)
      rfl (le_refl 0) (fun _ => rfl) (fun h => absurd h (lt_irrefl 0))
  rcases eq_or_lt_of_le hnn with hz | hp
  · have hb := foldl_signStep_bound ((List.finRange n).map col) ((0 : ℝ), false) (col i)
      (List.mem_map_of_mem col (List.mem_finRange i))
    rw [← hz] at hb
    have hci : col i = 0 := abs_nonpos_iff.mp hb
    rw [← hzero hz.symm]
    simp [hci]
  · rw [hpos hp]
    cases hs : (((List.finRange n).map col).foldl signStep ((0 : ℝ), false)).2 <;>
      simp [hs]

lemma svd_phase_negcol (svdO₁ svdO₂ : SvdAlg) (c : ℕ)
    (hu : ∀ (n d : ℕ) (x : Matrix (Fin n) (Fin d) ℝ),
      (svdO₂ n d x).u = ((svdO₁ n d x).u).map (negColMatrix c))
    (hsv : ∀ (n d : ℕ) (x : Matrix (Fin n) (Fin d) ℝ),
      (svdO₂ n d x).singular_values = (svdO₁ n d x).singular_values)
    (n d : ℕ) (x : Matrix (Fin n) (Fin d) ℝ) (isLin : Bool) (k : ℕ) :
    svd_phase svdO₂ n d x isLin k = svd_phase svdO₁ n d x isLin k := by
  unfold svd_phase
  rw [hu n d x, hsv n d x]
  by_cases hk : k ≤ min n d
  · cases hU : (svdO₁ n d x).u with
    | none => simp only [sliceVec, dif_pos hk, Option.map_none']
    | some U =>
      simp only [sliceVec, dif_pos hk, Option.map_some', determine_signs, sliceCols]
      congr 1
      refine List.map_congr_left fun i _ => ?_
      refine List.map_congr_left fun j _ => ?_
      simp only [Matrix.mul_diagonal, Matrix.of_apply, negColMatrix, Fin.coe_castLE]
      by_cases hc : (j : ℕ) = c
      · simp only [if_pos hc]
        have key := signOfColumn_neg_mul (fun t => U t (Fin.castLE hk j)) i
        have h2 : ∀ (u dv s2 s1 : ℝ), (-u) * s2 = u * s1 →
            ((-u) * dv) * s2 = (u * dv) * s1 := by
          intro u dv s2 s1 h
          calc ((-u) * dv) * s2 = dv * ((-u) * s2) := by ring
            _ = dv * (u * s1) := by rw [h]
            _ = (u * dv) * s1 := by ring
        exact h2 _ _ _ _ key
      · simp only [if_neg hc]
  · simp only [sliceVec, dif_neg hk]

/-- Claim C5 (amended): apply DOES normalize signs. Whenever a second SVD
routine returns, on every input, the same singular values and the same left
singular vectors except for one column returned negated, apply produces the
identical embedding, not a sign-flipped one: determine_signs re-orients each
selected column by the sign of its entry of largest absolute value. -/
theorem sign_normalization_amended (svdO₁ svdO₂ : SvdAlg) (c : ℕ)
    (hu : ∀ (n d : ℕ) (x : Matrix (Fin n) (Fin d) ℝ),
      (svdO₂ n d x).u = ((svdO₁ n d x).u).map (negColMatrix c))
    (hsv : ∀ (n d : ℕ) (x : Matrix (Fin n) (Fin d) ℝ),
      (svdO₂ n d x).singular_values = (svdO₁ n d x).singular_values)
    (p : KernelPca) (data : List (List ℝ)) :
    p.apply svdO₂ data = p.apply svdO₁ data := by
  unfold KernelPca.apply
  cases hv : p.validate data with
  | error e => rfl
  | ok a =>
    cases hker : p.kernel with
    | Linear =>
      cases hc : center_data data with
      | error e => rfl
      | ok x => exact svd_phase_negcol svdO₁ svdO₂ c hu hsv _ _ x true p.embed_dim
    | RationalQuadratic gamma alpha =>
      cases hc : center_kernel_matrix (p.form_kernel_matrix data) with
      | error e => rfl
      | ok x => exact svd_phase_negcol svdO₁ svdO₂ c hu hsv _ _ x false p.embed_dim
    | SquaredExponential gamma =>
      cases hc : center_kernel_matrix (p.form_kernel_matrix data) with
      | error e => rfl
      | ok x => exact svd_phase_negcol svdO₁ svdO₂ c hu hsv _ _ x false p.embed_dim

/-- Witness for the amended C5: the two concrete oracles svdC and svdCflip
differ exactly by the negation of u column 0, and apply produces identical
results on the concrete dataset [[0], [1]]. -/
theorem sign_normalization_witness :
    (∀ (n d : ℕ) (x : Matrix (Fin n) (Fin d) ℝ),
      (svdCflip n d x).u = ((svdC n d x).u).map (negColMatrix 0)) ∧
    (∀ (n d : ℕ) (x : Matrix (Fin n) (Fin d) ℝ),
      (svdCflip n d x).singular_values = (svdC n d x).singular_values) ∧
    KernelPca.apply svdCflip ⟨Kernel.RationalQuadratic 1 1, 1⟩ [[0], [1]]
      = KernelPca.apply svdC ⟨Kernel.RationalQuadratic 1 1, 1⟩ [[0], [1]] :=
  ⟨fun _ _ _ => rfl, fun _ _ _ => rfl,
    sign_normalization_amended svdC svdCflip 0 (fun _ _ _ => rfl) (fun _ _ _ => rfl)
      ⟨Kernel.RationalQuadratic 1 1, 1⟩ [[0], [1]]⟩

/-! Concrete evaluation of apply on the dataset [[0], [1]] with the rational
quadratic kernel, for the oracles svdC and svdCflip. -/

lemma rootHalf_pos : (0 : ℝ) < rootHalf := Real.sqrt_pos.mpr (by norm_num)

lemma rootHalf_mul_self : rootHalf * rootHalf = 1 / 2 :=
  Real.mul_self_sqrt (by norm_num)

lemma signOfColumn_negfirst :
    signOfColumn (fun t : Fin 2 => if (t : ℕ) = 0 then -rootHalf else rootHalf) = -1 := by
  have habs : |(-rootHalf)| = rootHalf := by rw [abs_neg, abs_of_pos rootHalf_pos]
  have hstep1 : signStep ((0 : ℝ), false) (-rootHalf) = (rootHalf, true) := by
    unfold signStep
    rw [habs, if_pos rootHalf_pos, if_pos (neg_lt_zero.mpr rootHalf_pos)]
  have hstep2 : signStep ((rootHalf : ℝ), true) rootHalf = (rootHalf, true) := by
    unfold signStep
    rw [abs_of_pos rootHalf_pos, if_neg (lt_irrefl rootHalf)]
  have hmap : (List.finRange 2).map
      (fun t : Fin 2 => if (t : ℕ) = 0 then -rootHalf else rootHalf)
        = [-rootHalf, rootHalf] := by
    rw [show List.finRange 2 = [0, 1] from rfl]
    norm_num
  unfold signOfColumn
  rw [hmap, List.foldl_cons, hstep1, List.foldl_cons, hstep2, List.foldl_nil]
  rfl

lemma signOfColumn_posfirst :
    signOfColumn (fun t : Fin 2 => if (t : ℕ) = 0 then rootHalf else -rootHalf) = 1 := by
  have habs : |(-rootHalf)| = rootHalf := by rw [abs_neg, abs_of_pos rootHalf_pos]
  have hstep1 : signStep ((0 : ℝ), false) rootHalf = (rootHalf, false) := by
    unfold signStep
    rw [abs_of_pos rootHalf_pos, if_pos rootHalf_pos,
      if_neg (not_lt.mpr (le_of_lt rootHalf_pos))]
  have hstep2 : signStep ((rootHalf : ℝ), false) (-rootHalf) = (rootHalf, false) := by
    unfold signStep
    rw [habs, if_neg (lt_irrefl rootHalf)]
  have hmap : (List.finRange 2).map
      (fun t : Fin 2 => if (t : ℕ) = 0 then rootHalf else -rootHalf)
        = [rootHalf, -rootHalf] := by
    rw [show List.finRange 2 = [0, 1] from rfl]
    norm_num
  unfold signOfColumn
  rw [hmap, List.foldl_cons, hstep1, List.foldl_cons, hstep2, List.foldl_nil]
  rfl

lemma apply_rq_eval (svdO : SvdAlg)
    (U : Matrix (Fin 2) (Fin 2) ℝ) (sv : Fin 2 → ℝ)
    (hU : (svdO 2 2 xC).u = some U)
    (hsv : (svdO 2 2 xC).singular_values = sv) :
    KernelPca.apply svdO ⟨Kernel.RationalQuadratic 1 1, 1⟩ [[0], [1]]
      = .ok [[(U 0 0 * Real.sqrt (sv 0)) * signOfColumn (fun t : Fin 2 => U t 0)],
             [(U 1 0 * Real.sqrt (sv 0)) * signOfColumn (fun t : Fin 2 => U t 0)]] := by
  have happly : KernelPca.apply svdO ⟨Kernel.RationalQuadratic 1 1, 1⟩ [[0], [1]]
      = svd_phase svdO 2 2 xC false 1 := rfl
  rw [happly]
  unfold svd_phase
  rw [hU, hsv]
  have h12 : (1 : ℕ) ≤ min 2 2 := by norm_num
  simp only [sliceVec, sliceCols, determine_signs, dif_pos h12, Option.map_some']
  congr 1
  rw [show List.finRange 2 = [0, 1] from rfl, show List.finRange 1 = [(0 : Fin 1)] from rfl]
  simp only [List.map_cons, List.map_nil, Matrix.mul_diagonal, Matrix.of_apply]
  rw [show Fin.castLE h12 (0 : Fin 1) = (0 : Fin 2) from rfl]
  norm_num

lemma apply_svdC_eval :
    KernelPca.apply svdC ⟨Kernel.RationalQuadratic 1 1, 1⟩ [[0], [1]]
      = .ok [[1 / 2], [-(1 / 2)]] := by
  rw [apply_rq_eval svdC
    (Matrix.of fun i j =>
      if (j : ℕ) = 0 then (if (i : ℕ) = 0 then -rootHalf else rootHalf) else rootHalf)
    (fun j => if (j : ℕ) = 0 then 1 / 2 else 0) rfl rfl]
  have hcol : (fun t : Fin 2 => Matrix.of (fun (i : Fin 2) (j : Fin 2) =>
      if (j : ℕ) = 0 then (if (i : ℕ) = 0 then -rootHalf else rootHalf) else rootHalf) t 0)
        = fun t : Fin 2 => if (t : ℕ) = 0 then -rootHalf else rootHalf := by
    funext t
    simp
  rw [hcol, signOfColumn_negfirst]
  have e1 : Matrix.of (fun (i : Fin 2) (j : Fin 2) =>
      if (j : ℕ) = 0 then (if (i : ℕ) = 0 then -rootHalf else rootHalf) else rootHalf)
        0 0 = -rootHalf := by simp
  have e2 : Matrix.of (fun (i : Fin 2) (j : Fin 2) =>
      if (j : ℕ) = 0 then (if (i : ℕ) = 0 then -rootHalf else rootHalf) else rootHalf)
        1 0 = rootHalf := by simp
  rw [e1, e2]
  rw [show (if (((0 : Fin 2)) : ℕ) = 0 then (1 : ℝ) / 2 else 0) = 1 / 2 from by norm_num]
  rw [show Real.sqrt (1 / 2) = rootHalf from rfl]
  have a1 : (-rootHalf * rootHalf) * (-1 : ℝ) = 1 / 2 := by
    linear_combination rootHalf_mul_self
  have a2 : (rootHalf * rootHalf) * (-1 : ℝ) = -(1 / 2) := by
    linear_combination -rootHalf_mul_self
  rw [a1, a2]

lemma apply_svdCflip_eval :
    KernelPca.apply svdCflip ⟨Kernel.RationalQuadratic 1 1, 1⟩ [[0], [1]]
      = .ok [[1 / 2], [-(1 / 2)]] := by
  rw [apply_rq_eval svdCflip
    (negColMatrix 0 (Matrix.of fun i j =>
      if (j : ℕ) = 0 then (if (i : ℕ) = 0 then -rootHalf else rootHalf) else rootHalf))
    (fun j => if (j : ℕ) = 0 then 1 / 2 else 0) rfl rfl]
  have hcol : (fun t : Fin 2 => negColMatrix 0 (Matrix.of fun (i : Fin 2) (j : Fin 2) =>
      if (j : ℕ) = 0 then (if (i : ℕ) = 0 then -rootHalf else rootHalf) else rootHalf) t 0)
        = fun t : Fin 2 => if (t : ℕ) = 0 then rootHalf else -rootHalf := by
    funext t
    by_cases ht : (t : ℕ) = 0
    · simp [negColMatrix, ht]
    · simp [negColMatrix, ht]
  rw [hcol, signOfColumn_posfirst]
  have h00 : negColMatrix 0 (Matrix.of fun (i : Fin 2) (j : Fin 2) =>
      if (j : ℕ) = 0 then (if (i : ℕ) = 0 then -rootHalf else rootHalf) else rootHalf)
        0 0 = rootHalf := by
    simp [negColMatrix]
  have h10 : negColMatrix 0 (Matrix.of fun (i : Fin 2) (j : Fin 2) =>
      if (j : ℕ) = 0 then (if (i : ℕ) = 0 then -rootHalf else rootHalf) else rootHalf)
        1 0 = -rootHalf := by
    simp [negColMatrix]
  rw [h00, h10]
  rw [show (if (((0 : Fin 2)) : ℕ) = 0 then (1 : ℝ) / 2 else 0) = 1 / 2 from by norm_num]
  rw [show Real.sqrt (1 / 2) = rootHalf from rfl]
  have a1 : (rootHalf * rootHalf) * (1 : ℝ) = 1 / 2 := by
    linear_combination rootHalf_mul_self
  have a2 : (-rootHalf * rootHalf) * (1 : ℝ) = -(1 / 2) := by
    linear_combination -rootHalf_mul_self
  rw [a1, a2]

/-- Counterexample to C5 as stated: the oracles svdC and svdCflip return
sign-flipped copies of the same first left singular vector of the concrete
centered matrix, yet apply produces the identical nonzero embedding for both,
not the entrywise negation the claim requires. -/
theorem sign_flip_counterexample :
    KernelPca.apply svdC ⟨Kernel.RationalQuadratic 1 1, 1⟩ [[0], [1]]
      = .ok [[1 / 2], [-(1 / 2)]] ∧
    KernelPca.apply svdCflip ⟨Kernel.RationalQuadratic 1 1, 1⟩ [[0], [1]]
      = .ok [[1 / 2], [-(1 / 2)]] ∧
    ¬ (KernelPca.apply svdCflip ⟨Kernel.RationalQuadratic 1 1, 1⟩ [[0], [1]]
        = .ok [[-(1 / 2 : ℝ)], [1 / 2]]) := by
  refine ⟨apply_svdC_eval, apply_svdCflip_eval, ?_⟩
  rw [apply_svdCflip_eval]
  intro h
  simp only [Except.ok.injEq, List.cons.injEq] at h
  have : (1 / 2 : ℝ) = -(1 / 2) := by
    have h1 := h.1
    simpa using h1
  norm_num at this

/-! The actual general-kernel path of apply, for comparison with the
eigendecomposition-plus-ranking path the spec describes. -/

lemma svd_phase_formula (svdO : SvdAlg) (n d : ℕ) (x : Matrix (Fin n) (Fin d) ℝ)
    (U : Matrix (Fin n) (Fin (min n d)) ℝ) (k : ℕ)
    (hle : k ≤ min n d) (hU : (svdO n d x).u = some U) :
    svd_phase svdO n d x false k = Except.ok
      ((List.finRange n).map fun i => (List.finRange k).map fun j =>
        (U i (Fin.castLE hle j)
            * Real.sqrt ((svdO n d x).singular_values (Fin.castLE hle j)))
          * signOfColumn (fun t => U t (Fin.castLE hle j))) := by
  unfold svd_phase
  rw [hU]
  simp only [sliceVec, sliceCols, determine_signs, dif_pos hle, Option.map_some']
  congr 1
  refine List.map_congr_left fun i _ => ?_
  refine List.map_congr_left fun j _ => ?_
  simp only [Matrix.mul_diagonal, Matrix.of_apply, Bool.false_eq_true, if_false]

/-- Claim C2 (amended): on the general kernel path apply builds the kernel
matrix, double-centers it to (R K) R, runs the SVD of that matrix requesting
left singular vectors, keeps the first embed_dim singular values and columns
in the order the routine returns them (relying on the SVD contract that they
arrive sorted descending, with no call to the index ranking utility), and
sets embedding entry (i, j) to u_j[i] times the square root of singular value
j, scaled by the determine_signs sign of column j. -/
theorem kernel_path_svd_amended (svdO : SvdAlg) (p : KernelPca)
    (data : List (List ℝ))
    (U : Matrix (Fin data.length) (Fin (min data.length data.length)) ℝ)
    (hk : p.kernel ≠ Kernel.Linear)
    (hval : p.validate data = .ok ())
    (hemb : p.embed_dim ≤ data.length)
    (hU : (svdO data.length data.length
        ((centerR data.length * p.form_kernel_matrix data)
          * centerR data.length)).u = some U) :
    ∃ hle : p.embed_dim ≤ min data.length data.length,
      p.apply svdO data = Except.ok
        ((List.finRange data.length).map fun i =>
          (List.finRange p.embed_dim).map fun j =>
            (U i (Fin.castLE hle j)
                * Real.sqrt ((svdO data.length data.length
                    ((centerR data.length * p.form_kernel_matrix data)
                      * centerR data.length)).singular_values (Fin.castLE hle j)))
              * signOfColumn (fun t => U t (Fin.castLE hle j))) := by
  have hle : p.embed_dim ≤ min data.length data.length := Nat.le_min.mpr ⟨hemb, hemb⟩
  refine ⟨hle, ?_⟩
  unfold KernelPca.apply
  rw [hval]
  cases hker : p.kernel with
  | Linear => exact absurd hker hk
  | RationalQuadratic gamma alpha =>
    rw [center_kernel_matrix_eq_ok]
    exact svd_phase_formula svdO data.length data.length _ U p.embed_dim hle hU
  | SquaredExponential gamma =>
    rw [center_kernel_matrix_eq_ok]
    exact svd_phase_formula svdO data.length data.length _ U p.embed_dim hle hU

/-- Witness for the amended C2 at the dataset [[0], [1]], the rational
quadratic kernel, embedding dimension 1 and the trivial oracle. -/
theorem kernel_path_svd_witness :
    (Kernel.RationalQuadratic (1 : ℝ) 1 ≠ Kernel.Linear) ∧
    (KernelPca.validate ⟨Kernel.RationalQuadratic 1 1, 1⟩ [[0], [1]] = Except.ok ()) ∧
    ((1 : ℕ) ≤ 2) ∧
    ((svdTrivial 2 2 xC).u = some Uzero) ∧
    (∃ hle : (1 : ℕ) ≤ min 2 2,
      KernelPca.apply svdTrivial ⟨Kernel.RationalQuadratic 1 1, 1⟩ [[0], [1]]
        = Except.ok
          ((List.finRange 2).map fun i =>
            (List.finRange 1).map fun j =>
              (Uzero i (Fin.castLE hle j)
                  * Real.sqrt ((svdTrivial 2 2 xC).singular_values (Fin.castLE hle j)))
                * signOfColumn (fun t => Uzero t (Fin.castLE hle j)))) := by
  have hk : Kernel.RationalQuadratic (1 : ℝ) 1 ≠ Kernel.Linear := fun h => nomatch h
  exact ⟨hk, rfl, one_le_two, rfl,
    kernel_path_svd_amended svdTrivial ⟨Kernel.RationalQuadratic 1 1, 1⟩ [[0], [1]]
      Uzero hk rfl one_le_two rfl⟩

lemma sort_half_zero : sort_indices_descending [(1 / 2 : ℝ), 0] = [0, 1] := by
  have h2 : List.range (List.length [(1 / 2 : ℝ), 0]) = [0, 1] := rfl
  norm_num [sort_indices_descending, h2, List.insertionSort, List.orderedInsert]

lemma spec_general_embedding_eval :
    spec_general_embedding 2 [1 / 2, 0] eigvecsC 1 = [[-(1 / 2 : ℝ)], [1 / 2]] := by
  unfold spec_general_embedding
  rw [sort_half_zero]
  rw [show List.range 2 = [0, 1] from rfl, show List.range 1 = [0] from rfl]
  simp only [List.map_cons, List.map_nil, List.getD_cons_zero]
  have hv0 : eigvecsC 0 0 = -rootHalf := by norm_num [eigvecsC]
  have hv1 : eigvecsC 0 1 = rootHalf := by norm_num [eigvecsC]
  rw [hv0, hv1, show Real.sqrt (1 / 2) = rootHalf from rfl]
  have b1 : -rootHalf * rootHalf = -(1 / 2 : ℝ) := by
    linear_combination -rootHalf_mul_self
  rw [b1, rootHalf_mul_self]

/-- Counterexample to C2 as stated: feeding the decomposition factors of the
concrete centered matrix (singular or eigen values 1/2 and 0, first vector
(-rootHalf, rootHalf)) to the embedding assembly the claim describes yields
the column (-(1/2), 1/2), but apply, handed the same factors by the oracle
svdC, returns the sign-normalized column (1/2, -(1/2)); and the path the
claim describes (symmetric eigendecomposition ranked by the index ranking
utility) is not the one the code runs. -/
theorem kernel_path_counterexample :
    KernelPca.apply svdC ⟨Kernel.RationalQuadratic 1 1, 1⟩ [[0], [1]]
      = .ok [[1 / 2], [-(1 / 2)]] ∧
    spec_general_embedding 2 [1 / 2, 0] eigvecsC 1 = [[-(1 / 2 : ℝ)], [1 / 2]] ∧
    ¬ (KernelPca.apply svdC ⟨Kernel.RationalQuadratic 1 1, 1⟩ [[0], [1]]
        = Except.ok (spec_general_embedding 2 [1 / 2, 0] eigvecsC 1)) := by
  refine ⟨apply_svdC_eval, spec_general_embedding_eval, ?_⟩
  rw [apply_svdC_eval, spec_general_embedding_eval]
  intro h
  simp only [Except.ok.injEq, List.cons.injEq] at h
  have : (1 / 2 : ℝ) = -(1 / 2) := by
    have h1 := h.1
    simpa using h1
  norm_num at this

end KPCA
